import Mathlib

/-!
Shallow embedding of the `LimitedVec` crate (src/lib.rs, src/iter.rs).

A `LimitedVec<T, N>` is a newtype over `[Option<T>; N]`.  We model the
backing array as a `List (Option T)`; the capacity `N` is the length of
that list, which every operation preserves.  A Rust panic is modelled as
the `none` of an `Option` result (for `push`, `From<Vec<T>>`,
`FromIterator`, deserialization) or as the dedicated `PRes.panic`
constructor (for `Index::index` and the `get` body, where a panic must be
distinguished from the ordinary absent sentinel `None`).
-/

namespace LV

/-- Result of a Rust expression that either produces a value or panics. -/
inductive PRes (α : Type) where
  | ok : α → PRes α
  | panic : PRes α
deriving DecidableEq, Repr

/-- `pub struct LimitedVec<T, const N: usize>([Option<T>; N]);`
The fixed-size array of optional slots, as a list; the capacity is the
list length. -/
structure LimitedVec (T : Type) where
  data : List (Option T)
deriving DecidableEq, Repr

namespace LimitedVec

variable {T : Type}

/-- `pub fn new() -> Self { LimitedVec([None; N]) }` -/
def new (T : Type) (N : Nat) : LimitedVec T := ⟨List.replicate N none⟩

/-- `pub fn len(&self) -> usize { self.0.iter().take_while(|i| i.is_some()).count() }` -/
def len (v : LimitedVec T) : Nat :=
  (v.data.takeWhile fun i => i.isSome).length

/-- `pub fn capacity(&self) -> usize { N }` -/
def capacity (v : LimitedVec T) : Nat := v.data.length

/-- `pub fn free(&self) -> usize { self.0.iter().rev().take_while(|i| i.is_none()).count() }` -/
def free (v : LimitedVec T) : Nat :=
  (v.data.reverse.takeWhile fun i => i.isNone).length

/-- `pub fn is_empty(&self) -> bool { self.len() == 0 }` -/
def isEmpty (v : LimitedVec T) : Bool := v.len == 0

/-- `pub fn is_full(&self) -> bool { self.free() == 0 }` -/
def isFull (v : LimitedVec T) : Bool := v.free == 0

/-- `fn next_mut(&mut self) -> Option<&mut Option<T>> { self.0.iter_mut().find(|i| i.is_none()) }`
We model the returned mutable reference by the index of the first empty
slot. -/
def nextMutIdx (v : LimitedVec T) : Option Nat :=
  v.data.findIdx? fun i => i.isNone

/-- `pub fn push(&mut self, item: T)`: writes `Some(item)` through
`next_mut()`, panicking (`none`) when no empty slot exists. -/
def push (v : LimitedVec T) (item : T) : Option (LimitedVec T) :=
  match v.nextMutIdx with
  | some i => some ⟨v.data.set i (some item)⟩
  | none => none

/-- `pub fn last_idx(&self) -> Option<usize> { self.len().checked_sub(1) }` -/
def last_idx (v : LimitedVec T) : Option Nat :=
  if v.len = 0 then none else some (v.len - 1)

/-- `pub fn pop(&mut self) -> Option<T>`: reads `last_idx()?`, then
`mem::replace(&mut self.0[last_idx], None)`.  Returns the popped value
together with the updated container. -/
def pop (v : LimitedVec T) : Option T × LimitedVec T :=
  match v.last_idx with
  | none => (none, v)
  | some i => ((v.data[i]?).join, ⟨v.data.set i none⟩)

/-- `impl Index<usize> for LimitedVec`: `self.0[index]` panics when
`index >= N`; an empty slot panics with the capacity message; an occupied
slot yields its element. -/
def index (v : LimitedVec T) (i : Nat) : PRes T :=
  match v.data[i]? with
  | some (some e) => .ok e
  | some none => .panic
  | none => .panic

/-- `pub fn get(&self, pos: usize) -> Option<&T>`: returns `None` when
`pos >= self.len()`, otherwise `Some(&self[pos])`; a panic in `self[pos]`
propagates. -/
def get (v : LimitedVec T) (pos : Nat) : PRes (Option T) :=
  if pos ≥ v.len then .ok none
  else
    match v.index pos with
    | .ok e => .ok (some e)
    | .panic => .panic

/-- The `Option<&T>` value produced by `get` (which never panics;
see `get_never_panics`). -/
def getO (v : LimitedVec T) (pos : Nat) : Option T :=
  match v.get pos with
  | .ok o => o
  | .panic => none

/-- `impl From<Vec<T>> for LimitedVec<T, N>`: panics (`none`) when
`values.len() > N`, otherwise fills slots `[0, k)` with the values and
the remaining `N - k` slots with `None`. -/
def fromVec (N : Nat) (values : List T) : Option (LimitedVec T) :=
  if values.length > N then none
  else some ⟨values.map some ++ List.replicate (N - values.length) none⟩

/-- The loop body of `FromIterator::from_iter`: pushes `Some(i)` for each
produced element, panicking (`none`) as soon as the buffer grows past `N`. -/
def fromIterLoop (N : Nat) (buf : List (Option T)) : List T → Option (List (Option T))
  | [] => some buf
  | i :: rest =>
    let buf' := buf ++ [some i]
    if buf'.length > N then none else fromIterLoop N buf' rest

/-- `impl FromIterator<T> for LimitedVec<T, N>`: collects the elements,
panicking on overflow, then pads the buffer with `None` up to length `N`. -/
def fromIter (N : Nat) (l : List T) : Option (LimitedVec T) :=
  match fromIterLoop N [] l with
  | none => none
  | some buf => some ⟨buf ++ List.replicate (N - buf.length) none⟩

/-- The sequence of elements yielded by iterating from cursor `pos`:
`Iter::next` returns `self.lvec.get(self.pos)?` and advances. -/
def collectFrom (v : LimitedVec T) (pos : Nat) : List T :=
  match h : v.getO pos with
  | none => []
  | some t => t :: collectFrom v (pos + 1)
termination_by v.len - pos
decreasing_by
  have hlt : pos < v.len := by
    by_contra hge
    simp only [LimitedVec.getO, LimitedVec.get, if_pos (Nat.le_of_not_lt hge)] at h
    exact Option.noConfusion h
  omega

/-- `impl Serialize for LimitedVec`: emits the sequence of iterated
elements (a sequence of length `self.len()`). -/
def serializeSeq (v : LimitedVec T) : List T := collectFrom v 0

/-- `LimitedVecVisitor::visit_seq`: collects the `k` incoming elements as
`Some`s, `assert!(N >= k)` (modelled as `none` on failure), then pads with
`None` up to length `N`. -/
def deserializeSeq (N : Nat) (l : List T) : Option (LimitedVec T) :=
  if N ≥ l.length then
    some ⟨l.map some ++ List.replicate (N - l.length) none⟩
  else none

end LimitedVec

/-- `pub struct Iter<'a, T, const N: usize> { lvec: &'a LimitedVec<T, N>, pos: usize }` -/
structure Iter (T : Type) where
  lvec : LimitedVec T
  pos : Nat

namespace Iter

variable {T : Type}

/-- `pub fn new(lvec: &'a LimitedVec<T, N>) -> Self { Self { lvec, pos: 0 } }` -/
def new (lvec : LimitedVec T) : Iter T := ⟨lvec, 0⟩

/-- `fn next(&mut self) -> Option<Self::Item>`: `let item = self.lvec.get(self.pos)?;
self.pos += 1; Some(item)`.  Returns the yielded item with the updated
iterator state. -/
def next (it : Iter T) : Option T × Iter T :=
  match it.lvec.getO it.pos with
  | none => (none, it)
  | some item => (some item, ⟨it.lvec, it.pos + 1⟩)

/-- The item produced by the `(k+1)`-th call to `next`, starting from
state `it`. -/
def nextN (it : Iter T) : Nat → Option T
  | 0 => (it.next).1
  | k + 1 => ((it.next).2).nextN k

end Iter

/-- `k` successive pushes of the given values, panicking (`none`) when any
push panics. -/
def pushAll {T : Type} (v : LimitedVec T) : List T → Option (LimitedVec T)
  | [] => some v
  | x :: xs => (v.push x).bind fun v' => pushAll v' xs

/-- `k` successive pops, collecting the returned values in pop order. -/
def popAll {T : Type} (v : LimitedVec T) : Nat → List (Option T) × LimitedVec T
  | 0 => ([], v)
  | k + 1 =>
    let r := v.pop
    let rest := popAll r.2 k
    (r.1 :: rest.1, rest.2)

/-- The containers reachable through the public API: created by `new`,
`From<Vec<T>>` or `FromIterator`, and mutated only by `push` and `pop`. -/
inductive Reachable {T : Type} : LimitedVec T → Prop
  | new (N : Nat) : Reachable (LimitedVec.new T N)
  | fromVec (N : Nat) (l : List T) (v : LimitedVec T)
      (h : LimitedVec.fromVec N l = some v) : Reachable v
  | fromIter (N : Nat) (l : List T) (v : LimitedVec T)
      (h : LimitedVec.fromIter N l = some v) : Reachable v
  | push (v v' : LimitedVec T) (x : T) (hv : Reachable v)
      (h : v.push x = some v') : Reachable v'
  | pop (v : LimitedVec T) (hv : Reachable v) : Reachable (v.pop).2

/-- The head-packed invariant, computed: after the leading `some`s, every
remaining slot is `none`. -/
def packedB : List (Option T) → Bool
  | [] => true
  | some _ :: rest => packedB rest
  | none :: rest => rest.all fun i => i.isNone

/-- A container is head-packed when its occupied slots form a contiguous
head: no `some` appears after a `none`. -/
def HeadPacked {T : Type} (v : LimitedVec T) : Prop := packedB v.data = true

instance {T : Type} (v : LimitedVec T) : Decidable (HeadPacked v) := by
  unfold HeadPacked; infer_instance

/-! ### Lemmas about the forward occupancy scan (`len`) -/

variable {T : Type}

theorem scan_le_length (d : List (Option T)) :
    (d.takeWhile fun i => i.isSome).length ≤ d.length := by
  induction d with
  | nil => simp
  | cons a rest ih =>
    cases a <;> (simp [List.takeWhile_cons]; try omega)

theorem getElem?_lt_scan (d : List (Option T)) (i : Nat)
    (h : i < (d.takeWhile fun x => x.isSome).length) :
    ∃ e, d[i]? = some (some e) := by
  induction d generalizing i with
  | nil => simp at h
  | cons a rest ih =>
    cases a with
    | none => simp [List.takeWhile_cons] at h
    | some e =>
      cases i with
      | zero => exact ⟨e, by simp⟩
      | succ j =>
        simp only [List.getElem?_cons_succ]
        simp [List.takeWhile_cons] at h
        exact ih j (by omega)

theorem getElem?_at_scan (d : List (Option T))
    (h : (d.takeWhile fun x => x.isSome).length < d.length) :
    d[(d.takeWhile fun x => x.isSome).length]? = some none := by
  induction d with
  | nil => simp at h
  | cons a rest ih =>
    cases a with
    | none => simp [List.takeWhile_cons]
    | some e =>
      simp [List.takeWhile_cons] at h ⊢
      exact ih (by omega)

theorem scan_set_pred (d : List (Option T))
    (h : 0 < (d.takeWhile fun x => x.isSome).length) :
    ((d.set ((d.takeWhile fun x => x.isSome).length - 1) none).takeWhile
        fun x => x.isSome).length
      = (d.takeWhile fun x => x.isSome).length - 1 := by
  induction d with
  | nil => simp at h
  | cons a rest ih =>
    cases a with
    | none => simp [List.takeWhile_cons] at h
    | some e =>
      simp only [List.takeWhile_cons, Option.isSome_some, if_true,
        List.length_cons]
      by_cases h0 : (rest.takeWhile fun x => x.isSome).length = 0
      · simp [h0, List.takeWhile_cons]
      · have h1 : (rest.takeWhile fun x => x.isSome).length + 1 - 1
            = ((rest.takeWhile fun x => x.isSome).length - 1) + 1 := by omega
        rw [h1, List.set_cons_succ, List.takeWhile_cons]
        simp only [Option.isSome_some, if_true, List.length_cons]
        rw [ih (by omega)]
        try omega

/-! ### The canonical form of a head-packed array -/

theorem allNone_eq_replicate (d : List (Option T))
    (h : (d.all fun x => x.isNone) = true) :
    d = List.replicate d.length none := by
  induction d with
  | nil => rfl
  | cons a rest ih =>
    rw [List.all_cons, Bool.and_eq_true] at h
    cases a with
    | some e => simp at h
    | none =>
      rw [List.length_cons, List.replicate_succ]
      exact congrArg (none :: ·) (ih h.2)

theorem packedB_canon (d : List (Option T)) (h : packedB d = true) :
    ∃ (l : List T) (n : Nat), d = l.map some ++ List.replicate n none := by
  induction d with
  | nil => exact ⟨[], 0, rfl⟩
  | cons a rest ih =>
    cases a with
    | some e =>
      obtain ⟨l, n, hrest⟩ := ih (by simpa [packedB] using h)
      exact ⟨e :: l, n, by simp [hrest]⟩
    | none =>
      have hall : rest = List.replicate rest.length none :=
        allNone_eq_replicate rest (by simpa [packedB] using h)
      refine ⟨[], rest.length + 1, ?_⟩
      rw [List.replicate_succ, List.map_nil, List.nil_append]
      exact congrArg (none :: ·) hall

theorem packedB_of_canon (l : List T) (n : Nat) :
    packedB (l.map some ++ List.replicate n none) = true := by
  induction l with
  | nil =>
    cases n with
    | zero => rfl
    | succ m =>
      simp only [List.map_nil, List.nil_append, List.replicate_succ, packedB]
      simp [List.all_eq_true, List.mem_replicate]
  | cons e l ih => simpa [packedB] using ih

theorem scan_canon (l : List T) (n : Nat) :
    ((l.map some ++ List.replicate n none).takeWhile
        fun x : Option T => x.isSome).length
      = l.length := by
  induction l with
  | nil =>
    cases n with
    | zero => rfl
    | succ m => simp [List.replicate_succ, List.takeWhile_cons]
  | cons e l ih =>
    simp [List.takeWhile_cons, ih]

theorem takeWhile_replicate_append (p : Option T → Bool) (hp : p none = true)
    (n : Nat) (rest : List (Option T)) :
    ((List.replicate n (none : Option T) ++ rest).takeWhile p)
      = List.replicate n none ++ rest.takeWhile p := by
  induction n with
  | zero => simp
  | succ m ih => simp [List.replicate_succ, List.takeWhile_cons, hp, ih]

theorem takeWhile_isNone_revMap (l : List T) :
    (((l.map some).reverse).takeWhile fun x => x.isNone) = [] := by
  rw [← List.map_reverse]
  cases l.reverse with
  | nil => simp
  | cons e t => simp [List.takeWhile_cons]

theorem rscan_canon (l : List T) (n : Nat) :
    (((l.map some ++ List.replicate n none).reverse.takeWhile
        fun x : Option T => x.isNone)).length = n := by
  rw [List.reverse_append, List.reverse_replicate,
    takeWhile_replicate_append _ rfl, takeWhile_isNone_revMap]
  simp

theorem findIdx?_canon (l : List T) (n : Nat) (k : Nat) :
    ((l.map some ++ List.replicate n none).findIdx?
        (fun x : Option T => x.isNone) k)
      = if n = 0 then none else some (k + l.length) := by
  induction l generalizing k with
  | nil =>
    cases n with
    | zero => simp [List.findIdx?_nil]
    | succ m => simp [List.replicate_succ, List.findIdx?_cons]
  | cons e l ih =>
    simp only [List.map_cons, List.cons_append, List.findIdx?_cons,
      Option.isNone_some, Bool.false_eq_true, if_false, ih (k + 1),
      List.length_cons]
    by_cases hn : n = 0
    · simp [hn]
    · simp only [hn, if_false, Option.some.injEq]
      omega

theorem set_canon_push (l : List T) (n : Nat) (x : T) :
    ((l.map some ++ List.replicate (n + 1) none).set l.length (some x))
      = (l ++ [x]).map some ++ List.replicate n none := by
  induction l with
  | nil => simp [List.replicate_succ]
  | cons e l ih =>
    simp only [List.map_cons, List.cons_append, List.length_cons,
      List.set_cons_succ, List.map_append, List.map_nil] at ih ⊢
    rw [ih]

theorem set_canon_pop (l : List T) (a : T) (n : Nat) :
    (((l ++ [a]).map some ++ List.replicate n none).set l.length none)
      = l.map some ++ List.replicate (n + 1) none := by
  induction l with
  | nil => simp [List.replicate_succ]
  | cons e l ih =>
    simp only [List.map_cons, List.cons_append, List.length_cons,
      List.set_cons_succ, List.map_append, List.map_nil] at ih ⊢
    rw [ih]

/-! ### Bridge lemmas on `LimitedVec` -/

theorem len_le_capacity (v : LimitedVec T) : v.len ≤ v.capacity :=
  scan_le_length v.data

theorem getElem?_lt_len (v : LimitedVec T) (i : Nat) (h : i < v.len) :
    ∃ e, v.data[i]? = some (some e) :=
  getElem?_lt_scan v.data i h

theorem index_lt_len (v : LimitedVec T) (i : Nat) (h : i < v.len) :
    ∃ e, v.index i = .ok e ∧ v.data[i]? = some (some e) := by
  obtain ⟨e, he⟩ := getElem?_lt_len v i h
  exact ⟨e, by simp [LimitedVec.index, he], he⟩

theorem get_lt_len (v : LimitedVec T) (i : Nat) (h : i < v.len) :
    ∃ e, v.get i = .ok (some e) ∧ v.index i = .ok e := by
  obtain ⟨e, hidx, _⟩ := index_lt_len v i h
  refine ⟨e, ?_, hidx⟩
  simp [LimitedVec.get, Nat.not_le.mpr h, hidx]

theorem get_ge_len (v : LimitedVec T) (i : Nat) (h : v.len ≤ i) :
    v.get i = .ok none := by
  simp [LimitedVec.get, h]

theorem get_never_panics (v : LimitedVec T) (i : Nat) : v.get i ≠ .panic := by
  by_cases h : i < v.len
  · obtain ⟨e, hg, _⟩ := get_lt_len v i h
    simp [hg]
  · simp [get_ge_len v i (Nat.le_of_not_lt h)]

theorem getO_lt_len (v : LimitedVec T) (i : Nat) (h : i < v.len) :
    ∃ e, v.getO i = some e ∧ v.data[i]? = some (some e) := by
  obtain ⟨e, hidx, he⟩ := index_lt_len v i h
  refine ⟨e, ?_, he⟩
  simp [LimitedVec.getO, LimitedVec.get, Nat.not_le.mpr h, hidx]

theorem getO_ge_len (v : LimitedVec T) (i : Nat) (h : v.len ≤ i) :
    v.getO i = none := by
  simp [LimitedVec.getO, get_ge_len v i h]

/-- A head-packed container is exactly an occupied head `l` followed by an
all-empty tail, and its three scans take the expected values. -/
theorem packed_canonical (v : LimitedVec T) (h : HeadPacked v) :
    ∃ (l : List T) (n : Nat), v.data = l.map some ++ List.replicate n none
      ∧ v.len = l.length ∧ v.capacity = l.length + n ∧ v.free = n := by
  obtain ⟨l, n, hd⟩ := packedB_canon v.data h
  refine ⟨l, n, hd, ?_, ?_, ?_⟩
  · show (v.data.takeWhile fun i => i.isSome).length = l.length
    rw [hd]; exact scan_canon l n
  · show v.data.length = l.length + n
    rw [hd]; simp
  · show (v.data.reverse.takeWhile fun i => i.isNone).length = n
    rw [hd]; exact rscan_canon l n

theorem packed_free_len (v : LimitedVec T) (h : HeadPacked v) :
    v.free + v.len = v.capacity := by
  obtain ⟨l, n, _, hL, hC, hF⟩ := packed_canonical v h
  omega

theorem pop_of_len_zero (v : LimitedVec T) (h : v.len = 0) :
    v.pop = (none, v) := by
  simp [LimitedVec.pop, LimitedVec.last_idx, h]

theorem pop_of_len_pos (v : LimitedVec T) (h : 0 < v.len) :
    v.pop = ((v.data[v.len - 1]?).join, ⟨v.data.set (v.len - 1) none⟩) := by
  simp [LimitedVec.pop, LimitedVec.last_idx, Nat.pos_iff_ne_zero.mp h]

theorem capacity_pop (v : LimitedVec T) : ((v.pop).2).capacity = v.capacity := by
  by_cases h : v.len = 0
  · rw [pop_of_len_zero v h]
  · rw [pop_of_len_pos v (Nat.pos_of_ne_zero h)]
    show (v.data.set (v.len - 1) none).length = v.data.length
    exact List.length_set v.data _ _

theorem len_pop (v : LimitedVec T) (h : 0 < v.len) :
    ((v.pop).2).len = v.len - 1 := by
  rw [pop_of_len_pos v h]
  exact scan_set_pred v.data h

/-- The slot at index `l.length` of `(l ++ [x]) ++ empty tail` holds `x`. -/
theorem getElem?_canon_at (l : List T) (x : T) (m : Nat) :
    ((l ++ [x]).map some ++ List.replicate m none)[l.length]? = some (some x) := by
  rw [List.getElem?_append, if_pos (by simp), List.getElem?_map,
    List.getElem?_concat_length]
  rfl

/-- A successful `push` on a head-packed container: the first empty slot is
slot `L`; the new container is head-packed, one longer, holds `x` at slot
`L`, agrees with the old one everywhere else, and pops straight back. -/
theorem packed_push_spec (v : LimitedVec T) (x : T) (h : HeadPacked v)
    (hlen : v.len < v.capacity) :
    v.nextMutIdx = some v.len
    ∧ ∃ v', v.push x = some v'
      ∧ HeadPacked v'
      ∧ v'.capacity = v.capacity
      ∧ v'.len = v.len + 1
      ∧ v'.data[v.len]? = some (some x)
      ∧ (∀ j, j ≠ v.len → v'.data[j]? = v.data[j]?)
      ∧ v'.pop = (some x, v) := by
  obtain ⟨l, n, hd, hL, hC, _⟩ := packed_canonical v h
  obtain ⟨m, rfl⟩ : ∃ m, n = m + 1 := ⟨n - 1, by omega⟩
  have hidx : v.nextMutIdx = some v.len := by
    show v.data.findIdx? (fun i => i.isNone) = some v.len
    rw [hd, findIdx?_canon l (m + 1) 0, if_neg (by omega), hL, Nat.zero_add]
  have hset : v.push x = some ⟨v.data.set v.len (some x)⟩ := by
    simp [LimitedVec.push, hidx]
  have hdata : v.data.set v.len (some x)
      = (l ++ [x]).map some ++ List.replicate m none := by
    rw [hd, hL, set_canon_push]
  refine ⟨hidx, ⟨v.data.set v.len (some x)⟩, hset, ?_, ?_, ?_, ?_, ?_, ?_⟩
  · show packedB (v.data.set v.len (some x)) = true
    rw [hdata]; exact packedB_of_canon (l ++ [x]) m
  · show (v.data.set v.len (some x)).length = v.data.length
    exact List.length_set v.data _ _
  · show ((v.data.set v.len (some x)).takeWhile fun i => i.isSome).length
      = v.len + 1
    rw [hdata, scan_canon (l ++ [x]) m, hL]; simp
  · show (v.data.set v.len (some x))[v.len]? = some (some x)
    rw [hdata, hL]
    exact getElem?_canon_at l x m
  · intro j hj
    exact List.getElem?_set_ne (fun he => hj he.symm) 
  · have hlen' : 0 < ((⟨v.data.set v.len (some x)⟩ : LimitedVec T)).len := by
      show 0 < ((v.data.set v.len (some x)).takeWhile fun i => i.isSome).length
      rw [hdata, scan_canon (l ++ [x]) m]; simp
    rw [pop_of_len_pos _ hlen']
    have hlen'' : ((⟨v.data.set v.len (some x)⟩ : LimitedVec T)).len = l.length + 1 := by
      show ((v.data.set v.len (some x)).takeWhile fun i => i.isSome).length = l.length + 1
      rw [hdata, scan_canon (l ++ [x]) m]; simp
    rw [hlen'']
    show ((((v.data.set v.len (some x)))[l.length + 1 - 1]?).join,
        (⟨(v.data.set v.len (some x)).set (l.length + 1 - 1) none⟩ : LimitedVec T))
      = (some x, v)
    have e1 : l.length + 1 - 1 = l.length := by omega
    rw [e1, hdata, getElem?_canon_at l x m, set_canon_pop l x m, ← hd]
    rfl

/-- A `pop` on a non-empty head-packed container keeps it head-packed. -/
theorem packed_pop_spec (v : LimitedVec T) (h : HeadPacked v) :
    HeadPacked (v.pop).2 := by
  by_cases h0 : v.len = 0
  · rw [pop_of_len_zero v h0]; exact h
  · obtain ⟨l, n, hd, hL, _, _⟩ := packed_canonical v h
    rcases List.eq_nil_or_concat l with rfl | ⟨l', a, rfl⟩
    · exact absurd hL h0
    · rw [pop_of_len_pos v (Nat.pos_of_ne_zero h0)]
      show packedB ((v.data.set (v.len - 1) none)) = true
      rw [hd, hL, List.concat_eq_append]
      have e1 : (l' ++ [a]).length - 1 = l'.length := by simp
      rw [e1, set_canon_pop l' a n]
      exact packedB_of_canon l' (n + 1)

/-! ### `FromIterator`, iteration, serialization -/

theorem fromIterLoop_spec (N : Nat) (l : List T) :
    ∀ buf : List (Option T), buf.length ≤ N →
      LimitedVec.fromIterLoop N buf l
        = if buf.length + l.length ≤ N then some (buf ++ l.map some)
          else none := by
  induction l with
  | nil =>
    intro buf hbuf
    simp [LimitedVec.fromIterLoop, hbuf]
  | cons i rest ih =>
    intro buf hbuf
    simp only [LimitedVec.fromIterLoop, List.length_append, List.length_cons,
      List.length_singleton, List.length_nil, Nat.zero_add]
    by_cases hb : buf.length + 1 > N
    · rw [if_pos hb, if_neg (by omega)]
    · rw [if_neg hb, ih (buf ++ [some i]) (by simp; omega)]
      simp only [List.length_append, List.length_singleton, List.map_cons,
        List.append_assoc, List.singleton_append]
      by_cases hc : buf.length + 1 + rest.length ≤ N
      · rw [if_pos hc, if_pos (by omega)]
      · rw [if_neg hc, if_neg (by omega)]

theorem fromIter_eq (N : Nat) (l : List T) :
    LimitedVec.fromIter N l
      = if l.length ≤ N then LimitedVec.fromVec N l else none := by
  rw [LimitedVec.fromIter, fromIterLoop_spec N l [] (by simp)]
  by_cases hl : l.length ≤ N
  · rw [if_pos (by simpa using hl), if_pos hl]
    simp only [List.nil_append]
    rw [LimitedVec.fromVec, if_neg (by omega)]
    simp
  · rw [if_neg (by simpa using hl), if_neg hl]

theorem collectFrom_unfold (v : LimitedVec T) (pos : Nat) :
    v.collectFrom pos
      = match v.getO pos with
        | none => []
        | some t => t :: v.collectFrom (pos + 1) := by
  rw [LimitedVec.collectFrom]
  split <;> (rename_i heq; rw [heq])

theorem collectFrom_of_none (v : LimitedVec T) (pos : Nat)
    (h : v.getO pos = none) : v.collectFrom pos = [] := by
  rw [collectFrom_unfold, h]

theorem collectFrom_of_some (v : LimitedVec T) (pos : Nat) (t : T)
    (h : v.getO pos = some t) :
    v.collectFrom pos = t :: v.collectFrom (pos + 1) := by
  rw [collectFrom_unfold, h]

theorem len_canon (l : List T) (n : Nat) :
    (⟨l.map some ++ List.replicate n none⟩ : LimitedVec T).len = l.length := by
  show ((l.map some ++ List.replicate n none).takeWhile
      fun i : Option T => i.isSome).length = l.length
  exact scan_canon l n

theorem getElem?_canon_lt (l : List T) (n : Nat) (pos : Nat)
    (hp : pos < l.length) :
    (l.map some ++ List.replicate n none)[pos]? = some (some (l.get ⟨pos, hp⟩)) := by
  rw [List.getElem?_append, if_pos (by simpa using hp), List.getElem?_map,
    List.getElem?_eq_getElem hp]
  rfl

theorem collectFrom_canon (l : List T) (n : Nat) :
    ∀ fuel pos, l.length - pos ≤ fuel →
      LimitedVec.collectFrom ⟨l.map some ++ List.replicate n none⟩ pos
        = l.drop pos := by
  intro fuel
  induction fuel with
  | zero =>
    intro pos hpos
    rw [collectFrom_of_none _ pos
      (getO_ge_len _ pos (by rw [len_canon]; omega))]
    rw [List.drop_of_length_le (by omega)]
  | succ f ih =>
    intro pos hpos
    by_cases hp : pos < l.length
    · obtain ⟨e, hget, hslot⟩ := getO_lt_len
        (⟨l.map some ++ List.replicate n none⟩ : LimitedVec T) pos
        (by rw [len_canon]; omega)
      rw [getElem?_canon_lt l n pos hp] at hslot
      have he : e = l.get ⟨pos, hp⟩ := by
        have := hslot
        simp at this
        exact this.symm
      rw [collectFrom_of_some _ pos e hget, ih (pos + 1) (by omega), he]
      rw [List.drop_eq_getElem_cons hp]
      rfl
    · rw [collectFrom_of_none _ pos
        (getO_ge_len _ pos (by rw [len_canon]; omega))]
      rw [List.drop_of_length_le (by omega)]

theorem collectFrom_canon_all (l : List T) (n : Nat) (pos : Nat) :
    LimitedVec.collectFrom ⟨l.map some ++ List.replicate n none⟩ pos
      = l.drop pos :=
  collectFrom_canon l n (l.length - pos) pos le_rfl

theorem reduceOption_canon (l : List T) (n : Nat) :
    (l.map some ++ List.replicate n none).reduceOption = l := by
  rw [List.reduceOption_append]
  have h1 : (l.map some).reduceOption = l := by
    induction l with
    | nil => rfl
    | cons e t ih => simp [List.reduceOption_cons_of_some, ih]
  have h2 : (List.replicate n (none : Option T)).reduceOption = [] := by
    induction n with
    | zero => rfl
    | succ m ih => simp [List.replicate_succ, ih]
  simp [h1, h2]

theorem popAll_succ (k : Nat) :
    ∀ v : LimitedVec T,
      popAll v (k + 1)
        = ((popAll v k).1 ++ [(((popAll v k).2).pop).1],
           (((popAll v k).2).pop).2) := by
  induction k with
  | zero => intro v; simp [popAll]
  | succ j ih =>
    intro v
    show ((v.pop).1 :: (popAll (v.pop).2 (j + 1)).1, (popAll (v.pop).2 (j + 1)).2)
      = _
    rw [ih (v.pop).2]
    simp [popAll]

/-! ### Additional helper results used by several claims -/

theorem pushAll_popAll :
    ∀ (xs : List T) (v : LimitedVec T), HeadPacked v →
      v.len + xs.length ≤ v.capacity →
      ∃ v', pushAll v xs = some v'
        ∧ popAll v' xs.length = (xs.reverse.map some, v) := by
  intro xs
  induction xs with
  | nil =>
    intro v hp hlen
    exact ⟨v, rfl, by simp [popAll]⟩
  | cons x xs ih =>
    intro v hp hlen
    have hlt : v.len < v.capacity := by
      simp only [List.length_cons] at hlen; omega
    obtain ⟨_, v1, hv1, hp1, hc1, hl1, _, _, hpop1⟩ :=
      packed_push_spec v x hp hlt
    obtain ⟨v', hv', hpops⟩ := ih v1 hp1 (by
      simp only [List.length_cons] at hlen
      omega)
    refine ⟨v', ?_, ?_⟩
    · show (v.push x).bind (fun w => pushAll w xs) = some v'
      rw [hv1]
      exact hv'
    · show popAll v' (xs.length + 1) = ((x :: xs).reverse.map some, v)
      rw [popAll_succ xs.length v', hpops]
      simp [hpop1]

/-! ### The claims -/

/-- Claim C1: every container reachable through the public API (created by
`new`, `From<Vec<T>>` or `FromIterator`, mutated only by `push` and `pop`)
satisfies the head-packed invariant — slots `[0, L)` occupied, slots
`[L, N)` empty, no interior gap — and consequently
`free() + len() = capacity()`, where `len` scans forward and `free` scans
backward. -/
theorem C1_reachable_head_packed {T : Type} (v : LimitedVec T)
    (h : Reachable v) :
    HeadPacked v ∧ v.free + v.len = v.capacity := by
  have hp : HeadPacked v := by
    induction h with
    | new N =>
      show packedB (List.replicate N (none : Option T)) = true
      have he : (List.replicate N (none : Option T))
          = ([] : List T).map some ++ List.replicate N none := by simp
      rw [he]
      exact packedB_of_canon [] N
    | fromVec N l v hv =>
      rw [LimitedVec.fromVec] at hv
      by_cases hl : l.length > N
      · rw [if_pos hl] at hv
        exact Option.noConfusion hv
      · rw [if_neg hl] at hv
        obtain rfl := (Option.some.inj hv).symm
        exact packedB_of_canon l (N - l.length)
    | fromIter N l v hv =>
      rw [fromIter_eq] at hv
      by_cases hl : l.length ≤ N
      · rw [if_pos hl, LimitedVec.fromVec, if_neg (by omega)] at hv
        obtain rfl := (Option.some.inj hv).symm
        exact packedB_of_canon l (N - l.length)
      · rw [if_neg hl] at hv
        exact Option.noConfusion hv
    | push v v' x hv hpush ih =>
      obtain ⟨l, n, hd, hL, hC, _⟩ := packed_canonical v ih
      have hn : n ≠ 0 := by
        intro h0
        subst h0
        have hnone : v.nextMutIdx = none := by
          show v.data.findIdx? (fun i => i.isNone) = none
          rw [hd, findIdx?_canon l 0 0, if_pos rfl]
        simp [LimitedVec.push, hnone] at hpush
      obtain ⟨_, v'', hv'', hp'', _⟩ :=
        packed_push_spec v x ih (by omega)
      rw [hpush] at hv''
      obtain rfl := Option.some.inj hv''
      exact hp''
    | pop v hv ih => exact packed_pop_spec v ih
  exact ⟨hp, packed_free_len v hp⟩

/-- Claim C1 witness: the invariant instantiated at the freshly created
container `new Nat 3`. -/
theorem C1_witness :
    HeadPacked (LimitedVec.new Nat 3)
      ∧ (LimitedVec.new Nat 3).free + (LimitedVec.new Nat 3).len
          = (LimitedVec.new Nat 3).capacity :=
  C1_reachable_head_packed _ (Reachable.new 3)

/-- Claim C2: on a head-packed container of length `L`, `push` fails
(panics with CapacityExceeded) iff `L = N`; when `L < N` the first empty
slot found by `next_mut` is slot `L`, the pushed value lands there, and
the new length is `L + 1`. -/
theorem C2_push_spec {T : Type} (v : LimitedVec T) (x : T)
    (h : HeadPacked v) :
    (v.push x = none ↔ v.len = v.capacity)
  ∧ (v.len < v.capacity →
      v.nextMutIdx = some v.len
      ∧ ∃ v', v.push x = some v'
        ∧ v'.data[v.len]? = some (some x)
        ∧ v'.len = v.len + 1) := by
  constructor
  · obtain ⟨l, n, hd, hL, hC, _⟩ := packed_canonical v h
    constructor
    · intro hnone
      by_contra hne
      have hlen : v.len < v.capacity :=
        lt_of_le_of_ne (len_le_capacity v) hne
      obtain ⟨_, v', hv', _⟩ := packed_push_spec v x h hlen
      rw [hv'] at hnone
      exact Option.noConfusion hnone
    · intro heq
      have hn : n = 0 := by omega
      subst hn
      have hnone : v.nextMutIdx = none := by
        show v.data.findIdx? (fun i => i.isNone) = none
        rw [hd, findIdx?_canon l 0 0, if_pos rfl]
      simp [LimitedVec.push, hnone]
  · intro hlen
    obtain ⟨hidx, v', hv', _, _, hlenv, hslot, _, _⟩ :=
      packed_push_spec v x h hlen
    exact ⟨hidx, v', hv', hslot, hlenv⟩

/-- Claim C2 witness: on the container `[some 1, none]` (capacity 2,
length 1) push does not fail, matching `len ≠ capacity`. -/
theorem C2_witness :
    (LimitedVec.push (⟨[some 1, none]⟩ : LimitedVec Nat) 5 = none
      ↔ (⟨[some 1, none]⟩ : LimitedVec Nat).len
          = (⟨[some 1, none]⟩ : LimitedVec Nat).capacity) :=
  (C2_push_spec (⟨[some 1, none]⟩ : LimitedVec Nat) 5 (by decide)).1

/-- Claim C3: `pop` on a container of length `L` returns the absent
sentinel and leaves the container unchanged when `L = 0`; when `L > 0` it
returns the element stored at position `L − 1`, marks that slot empty,
and the new length is `L − 1`.  (No head-packed hypothesis is needed.) -/
theorem C3_pop_spec {T : Type} (v : LimitedVec T) :
    (v.len = 0 → v.pop = (none, v))
  ∧ (0 < v.len →
      (v.pop).1 = (v.data[v.len - 1]?).join
      ∧ ((v.pop).1).isSome = true
      ∧ ((v.pop).2).data[v.len - 1]? = some none
      ∧ ((v.pop).2).len = v.len - 1) := by
  refine ⟨pop_of_len_zero v, ?_⟩
  intro h
  obtain ⟨e, he⟩ := getElem?_lt_len v (v.len - 1) (by omega)
  refine ⟨?_, ?_, ?_, len_pop v h⟩
  · rw [pop_of_len_pos v h]
  · rw [pop_of_len_pos v h]
    simp [he]
  · rw [pop_of_len_pos v h]
    show (v.data.set (v.len - 1) none)[v.len - 1]? = some none
    rw [List.getElem?_set_self', he]
    rfl

/-- Claim C3 witness: popping `[some 4, none]` yields length 0. -/
theorem C3_witness :
    ((⟨[some 4, none]⟩ : LimitedVec Nat).pop).2.len
      = (⟨[some 4, none]⟩ : LimitedVec Nat).len - 1 :=
  ((C3_pop_spec (⟨[some 4, none]⟩ : LimitedVec Nat)).2 (by decide)).2.2.2

/-- Claim C4: `get(i)` is present exactly when `i < L`, equals the value
`index(i)` returns there, and never panics for any `i` (including
`i ≥ N`); the infallible `index(i)` panics (OutOfBounds) precisely when
the slot at `i` is empty or `i ≥ N`, and in particular `index(len())`
panics whenever `len() < N`. -/
theorem C4_get_index_spec {T : Type} (v : LimitedVec T) (i : Nat) :
    (i < v.len → ∃ e, v.get i = .ok (some e) ∧ v.index i = .ok e)
  ∧ (v.len ≤ i → v.get i = .ok none)
  ∧ v.get i ≠ .panic
  ∧ (v.index i = .panic ↔ v.data[i]? = some none ∨ v.capacity ≤ i)
  ∧ (v.len < v.capacity → v.index v.len = .panic) := by
  refine ⟨get_lt_len v i, get_ge_len v i, get_never_panics v i, ?_, ?_⟩
  · rcases hde : v.data[i]? with _ | oe
    · have hge : v.capacity ≤ i := by
        show v.data.length ≤ i
        by_contra hlt
        rw [List.getElem?_eq_getElem (Nat.lt_of_not_le hlt)] at hde
        exact Option.noConfusion hde
      constructor
      · intro _
        exact Or.inr hge
      · intro _
        simp [LimitedVec.index, hde]
    · rcases oe with _ | e
      · constructor
        · intro _
          exact Or.inl rfl
        · intro _
          simp [LimitedVec.index, hde]
      · have hlt : i < v.capacity := by
          show i < v.data.length
          by_contra hge
          rw [List.getElem?_eq_none (Nat.le_of_not_lt hge)] at hde
          exact Option.noConfusion hde
        constructor
        · intro hp
          simp [LimitedVec.index, hde] at hp
        · intro hor
          rcases hor with hn | hge
          · exact absurd (Option.some.inj hn) (by simp)
          · omega
  · intro hlc
    have hslot : v.data[v.len]? = some none := getElem?_at_scan v.data hlc
    simp [LimitedVec.index, hslot]

/-- Claim C4 witness: on `[some 7, none, none]` (length 1, capacity 3),
indexing at `len()` panics even though `len() < N`. -/
theorem C4_witness :
    LimitedVec.index (⟨[some 7, none, none]⟩ : LimitedVec Nat) 1
      = PRes.panic :=
  (C4_get_index_spec (⟨[some 7, none, none]⟩ : LimitedVec Nat) 1).2.2.2.2
    (by decide)

/-- Claim C5: on a head-packed container of length `L < N`, `push x` then
`pop` returns `x` and restores the container exactly; more generally, for
`L + k ≤ N`, `k` pushes followed by `k` pops return the pushed values in
reverse order and restore the container (so the length is again `L`). -/
theorem C5_push_pop_algebra {T : Type} (v : LimitedVec T)
    (h : HeadPacked v) :
    (∀ x, v.len < v.capacity →
      ∃ v', v.push x = some v' ∧ v'.pop = (some x, v))
  ∧ (∀ xs : List T, v.len + xs.length ≤ v.capacity →
      ∃ v', pushAll v xs = some v'
        ∧ popAll v' xs.length = (xs.reverse.map some, v)) := by
  constructor
  · intro x hlen
    obtain ⟨_, v', hv', _, _, _, _, _, hpop⟩ := packed_push_spec v x h hlen
    exact ⟨v', hv', hpop⟩
  · intro xs hk
    exact pushAll_popAll xs v h hk

/-- Claim C5 witness: pushing `7, 8` onto `[some 1, none, none]` and
popping twice returns `8, 7` and restores the container. -/
theorem C5_witness :
    popAll (⟨[some 1, some 7, some 8]⟩ : LimitedVec Nat) 2
      = ([some 8, some 7], (⟨[some 1, none, none]⟩ : LimitedVec Nat)) := by
  obtain ⟨v', h1, h2⟩ :=
    (C5_push_pop_algebra (⟨[some 1, none, none]⟩ : LimitedVec Nat)
      (by decide)).2 [7, 8] (by decide)
  have h1c : pushAll (⟨[some 1, none, none]⟩ : LimitedVec Nat) [7, 8]
      = some (⟨[some 1, some 7, some 8]⟩ : LimitedVec Nat) := by decide
  rw [h1c] at h1
  obtain rfl := Option.some.inj h1
  exact h2

/-- Claim C6: `From<Vec<T>>` fails (CapacityExceeded) iff the sequence is
longer than `N`; otherwise it builds a container of length `k` holding the
sequence in slots `[0, k)` with slots `[k, N)` empty, and `FromIterator`
agrees with it for every sequence of length at most `N`. -/
theorem C6_from_sequence_spec {T : Type} (N : Nat) (l : List T) :
    (LimitedVec.fromVec N l = none ↔ N < l.length)
  ∧ (l.length ≤ N →
      ∃ v, LimitedVec.fromVec N l = some v
        ∧ v.capacity = N
        ∧ v.len = l.length
        ∧ v.data = l.map some ++ List.replicate (N - l.length) none)
  ∧ (l.length ≤ N → LimitedVec.fromIter N l = LimitedVec.fromVec N l) := by
  refine ⟨?_, ?_, ?_⟩
  · rw [LimitedVec.fromVec]
    by_cases hl : l.length > N
    · rw [if_pos hl]
      constructor
      · intro _
        omega
      · intro _
        rfl
    · rw [if_neg hl]
      constructor
      · intro hc
        exact Option.noConfusion hc
      · intro hc
        omega
  · intro hl
    refine ⟨⟨l.map some ++ List.replicate (N - l.length) none⟩, ?_, ?_,
      len_canon l (N - l.length), rfl⟩
    · rw [LimitedVec.fromVec, if_neg (by omega)]
    · show (l.map some ++ List.replicate (N - l.length) none).length = N
      simp
      omega
  · intro hl
    rw [fromIter_eq, if_pos hl]

/-- Claim C6 witness: collecting `[1, 2]` into capacity 3 agrees with
conversion from the sequence `[1, 2]`. -/
theorem C6_witness :
    LimitedVec.fromIter 3 ([1, 2] : List Nat)
      = LimitedVec.fromVec 3 ([1, 2] : List Nat) :=
  (C6_from_sequence_spec 3 ([1, 2] : List Nat)).2.2 (by decide)

/-- Claim C7: a fresh iterator starts at cursor 0 over its container;
`next` yields the element at the cursor and advances by one while the
cursor is below the container length, and otherwise yields the absent
sentinel, leaves the state unchanged, and keeps yielding absent on every
further call (fused). -/
theorem C7_iterator_spec {T : Type} (v : LimitedVec T) (it : Iter T) :
    ((Iter.new v).lvec = v ∧ (Iter.new v).pos = 0)
  ∧ (it.pos < it.lvec.len →
      ∃ e, it.next = (some e, ⟨it.lvec, it.pos + 1⟩)
        ∧ it.lvec.data[it.pos]? = some (some e))
  ∧ (it.lvec.len ≤ it.pos →
      it.next = (none, it) ∧ ∀ k, it.nextN k = none) := by
  refine ⟨⟨rfl, rfl⟩, ?_, ?_⟩
  · intro hlt
    obtain ⟨e, hg, hslot⟩ := getO_lt_len it.lvec it.pos hlt
    exact ⟨e, by simp [Iter.next, hg], hslot⟩
  · intro hge
    have hnext : it.next = (none, it) := by
      simp [Iter.next, getO_ge_len it.lvec it.pos hge]
    refine ⟨hnext, ?_⟩
    intro k
    induction k with
    | zero =>
      show (it.next).1 = none
      rw [hnext]
    | succ j ih =>
      show ((it.next).2).nextN j = none
      rw [hnext]
      exact ih

/-- Claim C7 witness: the exhausted iterator over `[some 5]` at cursor 1
yields absent and is unchanged. -/
theorem C7_witness :
    Iter.next ⟨(⟨[some 5]⟩ : LimitedVec Nat), 1⟩
      = (none, ⟨(⟨[some 5]⟩ : LimitedVec Nat), 1⟩) :=
  ((C7_iterator_spec (⟨[some 5]⟩ : LimitedVec Nat)
      ⟨(⟨[some 5]⟩ : LimitedVec Nat), 1⟩).2.2 (by decide)).1

/-- Claim C8: serialization of a head-packed container emits exactly the
`L` occupied elements in order (never the empty tail), and deserializing
the emitted sequence at the same capacity reconstructs an equal
container. -/
theorem C8_serialization_spec {T : Type} (v : LimitedVec T)
    (h : HeadPacked v) :
    (v.serializeSeq).length = v.len
  ∧ v.serializeSeq = v.data.reduceOption
  ∧ LimitedVec.deserializeSeq v.capacity v.serializeSeq = some v := by
  obtain ⟨l, n, hd, hL, hC, _⟩ := packed_canonical v h
  obtain ⟨d⟩ := v
  have hd' : d = l.map some ++ List.replicate n none := hd
  subst hd'
  have hser : LimitedVec.serializeSeq
      (⟨l.map some ++ List.replicate n none⟩ : LimitedVec T) = l := by
    show LimitedVec.collectFrom _ 0 = l
    rw [collectFrom_canon_all l n 0, List.drop_zero]
  refine ⟨?_, ?_, ?_⟩
  · rw [hser, len_canon]
  · rw [hser]
    show l = (l.map some ++ List.replicate n none).reduceOption
    rw [reduceOption_canon]
  · rw [hser]
    show LimitedVec.deserializeSeq
        ((l.map some ++ List.replicate n none).length) l = _
    rw [LimitedVec.deserializeSeq, if_pos (by simp)]
    have harith : (l.map some ++ List.replicate n none).length - l.length
        = n := by simp
    rw [harith]

/-- Claim C8 witness: round-tripping `[some 3, some 4, none]` through
serialization at capacity 3 reconstructs it. -/
theorem C8_witness :
    LimitedVec.deserializeSeq
        (⟨[some 3, some 4, none]⟩ : LimitedVec Nat).capacity
        (⟨[some 3, some 4, none]⟩ : LimitedVec Nat).serializeSeq
      = some (⟨[some 3, some 4, none]⟩ : LimitedVec Nat) :=
  (C8_serialization_spec (⟨[some 3, some 4, none]⟩ : LimitedVec Nat)
    (by decide)).2.2

/-- Claim C9: deserialization of a sequence of length `k` fails
(CapacityExceeded) iff `k > N`; otherwise it builds a head-packed
container of length `k` holding the `k` elements in order followed by
`N − k` empty slots. -/
theorem C9_deserialize_spec {T : Type} (N : Nat) (l : List T) :
    (LimitedVec.deserializeSeq N l = none ↔ N < l.length)
  ∧ (l.length ≤ N →
      ∃ v, LimitedVec.deserializeSeq N l = some v
        ∧ v.len = l.length
        ∧ v.capacity = N
        ∧ HeadPacked v
        ∧ v.data = l.map some ++ List.replicate (N - l.length) none) := by
  constructor
  · rw [LimitedVec.deserializeSeq]
    by_cases hl : N ≥ l.length
    · rw [if_pos hl]
      constructor
      · intro hc
        exact Option.noConfusion hc
      · intro hc
        omega
    · rw [if_neg hl]
      constructor
      · intro _
        omega
      · intro _
        rfl
  · intro hl
    refine ⟨⟨l.map some ++ List.replicate (N - l.length) none⟩,
      by rw [LimitedVec.deserializeSeq, if_pos (by omega)],
      len_canon l (N - l.length), ?_,
      packedB_of_canon l (N - l.length), rfl⟩
    show (l.map some ++ List.replicate (N - l.length) none).length = N
    simp
    omega

/-- Claim C9 witness: deserializing `[5, 6]` at capacity 3 yields the
container `[some 5, some 6, none]`. -/
theorem C9_witness :
    LimitedVec.deserializeSeq 3 ([5, 6] : List Nat)
      = some ⟨[some 5, some 6, none]⟩ := by
  obtain ⟨v, hv, _, _, _, hdata⟩ :=
    (C9_deserialize_spec 3 ([5, 6] : List Nat)).2 (by decide)
  obtain ⟨d⟩ := v
  have h3 : d = [some 5, some 6, none] := by simpa using hdata
  subst h3
  exact hv

/-- Claim C10: on a head-packed container, a successful `push` changes
only slot `L`; `pop` on a non-empty container changes only slot `L − 1`;
and `pop` on an empty container returns absent and leaves the container
entirely unchanged. -/
theorem C10_frame_spec {T : Type} (v : LimitedVec T) (x : T)
    (h : HeadPacked v) :
    (∀ v', v.push x = some v' →
      ∀ j, j ≠ v.len → v'.data[j]? = v.data[j]?)
  ∧ (0 < v.len →
      ∀ j, j ≠ v.len - 1 → ((v.pop).2).data[j]? = v.data[j]?)
  ∧ (v.len = 0 → v.pop = (none, v)) := by
  refine ⟨?_, ?_, pop_of_len_zero v⟩
  · intro v' hv' j hj
    by_cases hlen : v.len < v.capacity
    · obtain ⟨_, v'', hv'', _, _, _, _, hframe, _⟩ :=
        packed_push_spec v x h hlen
      rw [hv''] at hv'
      obtain rfl := Option.some.inj hv'
      exact hframe j hj
    · obtain ⟨l, n, hd, hL, hC, _⟩ := packed_canonical v h
      have hn : n = 0 := by
        have := len_le_capacity v
        omega
      subst hn
      have hnone : v.nextMutIdx = none := by
        show v.data.findIdx? (fun i => i.isNone) = none
        rw [hd, findIdx?_canon l 0 0, if_pos rfl]
      simp [LimitedVec.push, hnone] at hv'
  · intro hlen j hj
    rw [pop_of_len_pos v hlen]
    show (v.data.set (v.len - 1) none)[j]? = v.data[j]?
    exact List.getElem?_set_ne (fun he => hj he.symm)

/-- Claim C10 witness: popping `[some 2, some 3, none]` leaves slot 0
unchanged. -/
theorem C10_witness :
    ((⟨[some 2, some 3, none]⟩ : LimitedVec Nat).pop).2.data[0]?
      = (⟨[some 2, some 3, none]⟩ : LimitedVec Nat).data[0]? :=
  ((C10_frame_spec (⟨[some 2, some 3, none]⟩ : LimitedVec Nat) 0
      (by decide)).2.1 (by decide)) 0 (by decide)

end LV
